import Mathlib

/-! Verification of the universal-video-proxy plugin (Go).

Shallow embedding of the proxy's components: the AccessController
(util.IsAllowedHost), the SignatureService (signer.Generate /
signer.Verify over HMAC-SHA256), the PlaylistRewriter
(rewrite.M3U8Rewriter), the bounded LRU+TTL cache.Cache, and the
byte-range server (handleRangeRequest in main.go).

Go strings are byte slices; we model them as `List Char` where each
character stands for one byte (all inputs considered are ASCII, where
this coincides with Go's UTF-8 bytes).  Machine integers (int / int64)
are modelled as `Int`, with 64-bit wrap-around applied explicitly at the
one subtraction where overflow matters (the elapsed-time check of
Signer.Verify).  Byte payloads ([]byte) are `List Nat` with entries
below 256. -/

/-! Part 1: Go string primitives (the strings package), on `List Char`. -/

/-- A Go string: a sequence of bytes, one `Char` per byte. -/
abbrev GoStr := List Char

/-- Go strings.HasPrefix. -/
def strStarts (s pre : GoStr) : Bool := pre.isPrefixOf s

/-- Go strings.HasSuffix. -/
def strEnds (s suf : GoStr) : Bool := suf.isSuffixOf s

/-- ASCII white space, as trimmed by Go strings.TrimSpace (we restrict
to the ASCII part of Unicode white space). -/
def isSpaceChar (c : Char) : Bool :=
  c = ' ' || c = '\t' || c = '\n' || c = '\x0b' || c = '\x0c' || c = '\r'

/-- Go strings.TrimSpace. -/
def trimSpace (s : GoStr) : GoStr :=
  ((s.dropWhile isSpaceChar).reverse.dropWhile isSpaceChar).reverse

/-- Go strings.Split with a one-byte separator (the only separators the
program uses are the newline, the comma and the dash). -/
def splitChar (sep : Char) : GoStr → List GoStr
  | [] => [[]]
  | c :: cs =>
    match splitChar sep cs with
    | [] => [[]]
    | p :: ps => if c = sep then [] :: p :: ps else (c :: p) :: ps

/-- Go strings.Join. -/
def joinStr (sep : GoStr) (parts : List GoStr) : GoStr := List.intercalate sep parts

/-- Bytes of a Go string (ASCII model: one byte per char). -/
def strBytes (s : GoStr) : List Nat := s.map Char.toNat

/-! Part 2: decimal rendering and parsing (the strconv package). -/

/-- Decimal digit character. -/
def digitChar (n : Nat) : Char := Char.ofNat (48 + n)

/-- Decimal digits of a natural number, most significant first
(fuel-based so that it reduces in the kernel). -/
def natReprAux : Nat → Nat → GoStr
  | 0, _ => []
  | fuel + 1, n =>
    if n < 10 then [digitChar n]
    else natReprAux fuel (n / 10) ++ [digitChar (n % 10)]

/-- Decimal rendering of a natural number. -/
def natRepr (n : Nat) : GoStr := natReprAux (n + 1) n

/-- Go strconv.FormatInt(i, 10), also fmt.Sprintf of an integer. -/
def formatInt (i : Int) : GoStr :=
  if i < 0 then '-' :: natRepr i.natAbs else natRepr i.toNat

/-- Value of a digit string, as accumulated by strconv.ParseInt. -/
def digitsVal (ds : GoStr) : Nat :=
  ds.foldl (fun a c => a * 10 + (c.toNat - 48)) 0

/-- Go strconv.ParseInt(s, 10, 64) (= strconv.Atoi on a 64-bit
platform): optional sign, then a non-empty run of decimal digits, value
within the int64 range; `none` models a non-nil error.  The digit run
is handled by `goParseDigits`. -/
def goParseDigits (neg : Bool) (ds : GoStr) : Option Int :=
  if ds.isEmpty then none
  else if ds.all Char.isDigit then
    let v : Int := if neg then -(digitsVal ds : Int) else (digitsVal ds : Int)
    if v < -(2 ^ 63) || v > 2 ^ 63 - 1 then none else some v
  else none

/-- Sign handling of strconv.ParseInt: a leading dash or plus is
stripped and the rest parsed as digits. -/
def goParseInt64 : GoStr → Option Int
  | [] => goParseDigits false []
  | c :: rest =>
    if c = '-' then goParseDigits true rest
    else if c = '+' then goParseDigits false rest
    else goParseDigits false (c :: rest)

/-- Two's-complement wrap of an integer into the int64 range; Go int64
subtraction of `b` from `a` yields `wrap64 (a - b)`. -/
def wrap64 (x : Int) : Int := (x + 2 ^ 63) % 2 ^ 64 - 2 ^ 63

/-! Part 3: SHA-256 and HMAC-SHA256 (the crypto/sha256 and crypto/hmac
packages), modelled from FIPS 180-4 and RFC 2104, which is what the Go
standard library implements.  Words are `Nat` values kept below 2^32. -/

/-- Truncation to 32 bits. -/
def w32 (n : Nat) : Nat := n % 4294967296

/-- Addition modulo 2^32. -/
def add32 (a b : Nat) : Nat := (a + b) % 4294967296

/-- Right rotation of a 32-bit word. -/
def rotr32 (n x : Nat) : Nat := w32 ((x >>> n) ||| (x <<< (32 - n)))

/-- Complement of a 32-bit word. -/
def not32 (x : Nat) : Nat := Nat.xor x 4294967295

def bigSigma0 (x : Nat) : Nat := Nat.xor (Nat.xor (rotr32 2 x) (rotr32 13 x)) (rotr32 22 x)
def bigSigma1 (x : Nat) : Nat := Nat.xor (Nat.xor (rotr32 6 x) (rotr32 11 x)) (rotr32 25 x)
def smallSigma0 (x : Nat) : Nat := Nat.xor (Nat.xor (rotr32 7 x) (rotr32 18 x)) (x >>> 3)
def smallSigma1 (x : Nat) : Nat := Nat.xor (Nat.xor (rotr32 17 x) (rotr32 19 x)) (x >>> 10)
def chFn (x y z : Nat) : Nat := Nat.xor (Nat.land x y) (Nat.land (not32 x) z)
def majFn (x y z : Nat) : Nat :=
  Nat.xor (Nat.xor (Nat.land x y) (Nat.land x z)) (Nat.land y z)

/-- Round constants of SHA-256. -/
def sha256K : List Nat :=
  [1116352408, 1899447441, 3049323471, 3921009573, 961987163,
   1508970993, 2453635748, 2870763221, 3624381080, 310598401,
   607225278, 1426881987, 1925078388, 2162078206, 2614888103,
   3248222580, 3835390401, 4022224774, 264347078, 604807628,
   770255983, 1249150122, 1555081692, 1996064986, 2554220882,
   2821834349, 2952996808, 3210313671, 3336571891, 3584528711,
   113926993, 338241895, 666307205, 773529912, 1294757372,
   1396182291, 1695183700, 1986661051, 2177026350, 2456956037,
   2730485921, 2820302411, 3259730800, 3345764771, 3516065817,
   3600352804, 4094571909, 275423344, 430227734, 506948616,
   659060556, 883997877, 958139571, 1322822218, 1537002063,
   1747873779, 1955562222, 2024104815, 2227730452, 2361852424,
   2428436474, 2756734187, 3204031479, 3329325298]

/-- Initial hash value of SHA-256. -/
def sha256H0 : List Nat :=
  [1779033703, 3144134277, 1013904242, 2773480762,
   1359893119, 2600822924, 528734635, 1541459225]

/-- Big-endian byte rendering of a word, `count` bytes. -/
def beBytes (count n : Nat) : List Nat :=
  (List.range count).map fun i => (n >>> (8 * (count - 1 - i))) % 256

/-- Big-endian word from bytes. -/
def ofBytesBE (bs : List Nat) : Nat := bs.foldl (fun a b => a * 256 + b) 0

/-- Padding of SHA-256: a `0x80` byte, zeros to 56 mod 64, then the
8-byte big-endian bit length. -/
def padMessage (msg : List Nat) : List Nat :=
  let len := msg.length
  let zeros := (119 - len % 64) % 64
  msg ++ (0x80 :: List.replicate zeros 0) ++ beBytes 8 (len * 8)

/-- Splitting into 64-byte blocks (fuel-based structural recursion). -/
def toBlocksAux : Nat → List Nat → List (List Nat)
  | 0, _ => []
  | _, [] => []
  | fuel + 1, l => l.take 64 :: toBlocksAux fuel (l.drop 64)

def toBlocks (l : List Nat) : List (List Nat) := toBlocksAux l.length l

/-- First 16 words of the message schedule. -/
def toWords (block : List Nat) : List Nat :=
  (List.range 16).map fun i => ofBytesBE ((block.drop (4 * i)).take 4)

/-- Extension of the schedule by `n` further words. -/
def extendWords : Nat → Array Nat → Array Nat
  | 0, ws => ws
  | n + 1, ws =>
    let i := ws.size
    let w := add32 (add32 (smallSigma1 (ws.getD (i - 2) 0)) (ws.getD (i - 7) 0))
                   (add32 (smallSigma0 (ws.getD (i - 15) 0)) (ws.getD (i - 16) 0))
    extendWords n (ws.push w)

/-- One compression round: the state is the word list a,b,c,d,e,f,g,h. -/
def roundStep (st : List Nat) (kw : Nat × Nat) : List Nat :=
  match st with
  | [a, b, c, d, e, f, g, h] =>
    let t1 := add32 h (add32 (bigSigma1 e) (add32 (chFn e f g) (add32 kw.1 kw.2)))
    let t2 := add32 (bigSigma0 a) (majFn a b c)
    [add32 t1 t2, a, b, c, add32 d t1, e, f, g]
  | _ => st

/-- Compression of one 64-byte block into the running hash. -/
def compressBlock (h : List Nat) (block : List Nat) : List Nat :=
  let ws := (extendWords 48 (toWords block).toArray).toList
  let st := (sha256K.zip ws).foldl roundStep h
  (h.zip st).map fun p => add32 p.1 p.2

/-- SHA-256 of a byte sequence (32-byte digest). -/
def sha256 (msg : List Nat) : List Nat :=
  ((toBlocks (padMessage msg)).foldl compressBlock sha256H0).flatMap (beBytes 4)

/-- HMAC-SHA256 (RFC 2104 with a 64-byte block, as in crypto/hmac). -/
def hmacSha256 (key msg : List Nat) : List Nat :=
  let k0 := if key.length > 64 then sha256 key else key
  let kpad := k0 ++ List.replicate (64 - k0.length) 0
  let ipad := kpad.map fun b => Nat.xor b 0x36
  let opad := kpad.map fun b => Nat.xor b 0x5c
  sha256 (opad ++ sha256 (ipad ++ msg))

/-- Lower-case hex digit. -/
def hexDigit (n : Nat) : Char := if n < 10 then Char.ofNat (48 + n) else Char.ofNat (87 + n)

/-- Go hex.EncodeToString. -/
def hexEncode (bs : List Nat) : GoStr :=
  bs.flatMap fun b => [hexDigit (b / 16), hexDigit (b % 16)]

/-- Hex of the HMAC-SHA256 of a payload under a secret, on Go strings. -/
def hmacHex (secret payload : GoStr) : GoStr :=
  hexEncode (hmacSha256 (strBytes secret) (strBytes payload))

/-! Part 4: AccessController, util.IsAllowedHost.

The composition of url.Parse with the Hostname method belongs to Go's
net/url standard library; we abstract it as a parameter
`parseHostname`, returning `none` exactly when url.Parse returns a
non-nil error, and otherwise the hostname without port.  The allow-list
logic itself is transcribed from internal/util/util.go. -/

/-- Go util.IsAllowedHost, parameterized by the net/url hostname
extraction. -/
def IsAllowedHost (parseHostname : GoStr → Option GoStr)
    (targetURL : GoStr) (allowHosts : List GoStr) : Bool :=
  if allowHosts.length = 0 then false
  else
    match parseHostname targetURL with
    | none => false
    | some hostname =>
      allowHosts.any fun allowed =>
        hostname = allowed || strEnds hostname ('.' :: allowed)

/-! Part 5: SignatureService, the internal/signer package. -/

/-- Go signer.Signer. -/
structure Signer where
  secret : GoStr
  ttlSeconds : Int
  enabled : Bool

/-- Outcomes of Signer.Verify: the distinct error values the Go
function returns, plus `ok` for a nil error. -/
inductive VerifyResult where
  | ok
  | missingParams
  | invalidTimestamp
  | expired
  | mismatch
deriving DecidableEq, Repr

/-- Go Signer.Generate: `now` is the unix-seconds clock reading;
returns the signature and timestamp strings, or `none` for the
signing-disabled error. -/
def Signer.Generate (s : Signer) (now : Int) (url : GoStr) : Option (GoStr × GoStr) :=
  if !s.enabled then none
  else
    let ts := formatInt now
    some (hmacHex s.secret (url ++ ('|' :: ts)), ts)

/-- Go Signer.Verify: `now` is the unix-seconds clock reading.  The
elapsed-time test compares now minus timestamp against the TTL in Go
int64 arithmetic, so the subtraction wraps (`wrap64`). -/
def Signer.Verify (s : Signer) (now : Int) (url sign ts : GoStr) : VerifyResult :=
  if !s.enabled then .ok
  else if sign = [] || ts = [] then .missingParams
  else
    match goParseInt64 ts with
    | none => .invalidTimestamp
    | some timestamp =>
      if wrap64 (now - timestamp) > s.ttlSeconds then .expired
      else
        let expectedSign := hmacHex s.secret (url ++ ('|' :: ts))
        if sign ≠ expectedSign then .mismatch
        else .ok

/-! Part 6: the signature comparison of Signer.Verify.

Signer.Verify compares the provided and expected signatures with Go's
built-in string comparison, which first compares lengths and then scans
bytes, stopping at the first differing byte.  `goStrScan` returns the
verdict together with the number of byte comparisons the scan performs
(a model of the comparison's running time). -/

/-- Byte-scan of Go's string equality, with comparison count. -/
def goStrScan : GoStr → GoStr → Bool × Nat
  | [], [] => (true, 0)
  | _, [] => (false, 0)
  | [], _ => (false, 0)
  | a :: as, b :: bs =>
    if a = b then
      let r := goStrScan as bs
      (r.1, r.2 + 1)
    else (false, 1)

/-- Go string equality: length check, then byte scan. -/
def goStringEq (a b : GoStr) : Bool :=
  if a.length ≠ b.length then false else (goStrScan a b).1

/-- Number of byte comparisons Go's string equality performs. -/
def goStringEqSteps (a b : GoStr) : Nat :=
  if a.length ≠ b.length then 0 else (goStrScan a b).2

/-! Part 7: PlaylistRewriter, the internal/rewrite package.

The resolveURL method calls url.Parse on the base and then the Parse
method of the result (RFC 3986 reference resolution) from Go's net/url
standard library; we abstract that composition as a parameter
`resolveRef base ref`, `none` exactly when either parse returns a
non-nil error.  Everything else is transcribed from the rewrite
package. -/

/-- Unreserved bytes of url.QueryEscape (alphanumerics and the four
marks dash, underscore, dot, tilde). -/
def isUnescapedQueryByte (c : Char) : Bool :=
  c.isAlpha || c.isDigit || c = '-' || c = '_' || c = '.' || c = '~'

/-- Upper-case hex digit. -/
def hexDigitUpper (n : Nat) : Char :=
  if n < 10 then Char.ofNat (48 + n) else Char.ofNat (55 + n)

/-- Go url.QueryEscape: unreserved bytes kept, space becomes a plus,
every other byte becomes a percent-escaped upper-case hex pair. -/
def queryEscape (s : GoStr) : GoStr :=
  s.flatMap fun c =>
    if isUnescapedQueryByte c then [c]
    else if c = ' ' then ['+']
    else ['%', hexDigitUpper (c.toNat / 16 % 16), hexDigitUpper (c.toNat % 16)]

/-- Go rewrite.M3U8Rewriter.  The Go fields segPrefix and keyPrefix are
named segPfx and keyPfx here. -/
structure M3U8Rewriter where
  baseURL : GoStr
  segPfx : GoStr
  keyPfx : GoStr
  signParams : GoStr

/-- Go M3U8Rewriter.resolveURL (a method whose receiver is unused):
absolute http(s) references pass through, anything else is resolved
against the base URL, falling back to the reference itself when either
parse fails. -/
def resolveURL (resolveRef : GoStr → GoStr → Option GoStr)
    (urlStr baseURL : GoStr) : GoStr :=
  if strStarts urlStr ("http://").data || strStarts urlStr ("https://").data then urlStr
  else
    match resolveRef baseURL urlStr with
    | none => urlStr
    | some resolved => resolved

/-- Go M3U8Rewriter.buildSegmentURL. -/
def M3U8Rewriter.buildSegmentURL (r : M3U8Rewriter) (segmentURL : GoStr) : GoStr :=
  let encoded := queryEscape segmentURL
  let result := r.baseURL ++ r.segPfx ++ ("?u=").data ++ encoded
  if r.signParams ≠ [] then result ++ '&' :: r.signParams else result

/-- Go M3U8Rewriter.buildKeyURL. -/
def M3U8Rewriter.buildKeyURL (r : M3U8Rewriter) (keyURL : GoStr) : GoStr :=
  let encoded := queryEscape keyURL
  let result := r.baseURL ++ r.keyPfx ++ ("?u=").data ++ encoded
  if r.signParams ≠ [] then result ++ '&' :: r.signParams else result

/-- One comma-separated attribute of a key directive, as
M3U8Rewriter.rewriteKeyLine transforms it: a piece whose trimmed form
is URI= followed by a fully double-quoted value is rewritten, any other
piece is kept verbatim. -/
def M3U8Rewriter.keyAttr (resolveRef : GoStr → GoStr → Option GoStr)
    (r : M3U8Rewriter) (baseURL part0 : GoStr) : GoStr :=
  let part := trimSpace part0
  if strStarts part ("URI=").data then
    let uriPart := part.drop 4
    if 2 ≤ uriPart.length ∧ uriPart.head? = some '\"' ∧ uriPart.getLast? = some '\"' then
      let uri := (uriPart.drop 1).dropLast
      let resolvedURI := resolveURL resolveRef uri baseURL
      ("URI=\"").data ++ r.buildKeyURL resolvedURI ++ ['\"']
    else part0
  else part0

/-- Go M3U8Rewriter.rewriteKeyLine: split on every comma, transform
each piece, join back with commas. -/
def M3U8Rewriter.rewriteKeyLine (resolveRef : GoStr → GoStr → Option GoStr)
    (r : M3U8Rewriter) (line baseURL : GoStr) : GoStr :=
  joinStr [','] ((splitChar ',' line).map (r.keyAttr resolveRef baseURL))

/-- One line of a playlist, as M3U8Rewriter.Rewrite transforms it. -/
def M3U8Rewriter.rewriteLine (resolveRef : GoStr → GoStr → Option GoStr)
    (r : M3U8Rewriter) (originalURL line0 : GoStr) : GoStr :=
  let line := trimSpace line0
  if line = [] || strStarts line ("#").data then
    if strStarts line ("#EXT-X-KEY:").data then
      r.rewriteKeyLine resolveRef line originalURL
    else line
  else
    r.buildSegmentURL (resolveURL resolveRef line originalURL)

/-- Go M3U8Rewriter.Rewrite (the Go function also returns an error,
which is always nil). -/
def M3U8Rewriter.Rewrite (resolveRef : GoStr → GoStr → Option GoStr)
    (r : M3U8Rewriter) (content originalURL : GoStr) : GoStr :=
  joinStr ['\n'] ((splitChar '\n' content).map (r.rewriteLine resolveRef originalURL))

/-! Part 8: ResourceCache, the internal/cache package.

The embedded hashicorp golang-lru v2 cache is modelled as an
association list in most-recently-used-first order: Get and Add move
the touched key to the front, and Add evicts from the back once the
capacity is exceeded. -/

/-- Go cache.CacheEntry. -/
structure CacheEntry where
  data : List Nat
  expiresAt : Int
deriving DecidableEq, Repr

/-- LRU state: association list, most recently used first. -/
abbrev LruState := List (GoStr × CacheEntry)

/-- Value stored under a key, if any. -/
def lruLookup (key : GoStr) : LruState → Option CacheEntry
  | [] => none
  | (k, e) :: rest => if k = key then some e else lruLookup key rest

/-- Removal of a key from the state. -/
def lruRemove (key : GoStr) : LruState → LruState
  | [] => []
  | (k, e) :: rest => if k = key then lruRemove key rest else (k, e) :: lruRemove key rest

/-- Get of the LRU cache: on a hit the key moves to the front. -/
def lruGet (key : GoStr) (st : LruState) : Option CacheEntry × LruState :=
  match lruLookup key st with
  | none => (none, st)
  | some e => (some e, (key, e) :: lruRemove key st)

/-- Add of the LRU cache: insert or overwrite at the front and evict
the least-recently-used entries beyond the capacity. -/
def lruAdd (cap : Nat) (key : GoStr) (e : CacheEntry) (st : LruState) : LruState :=
  ((key, e) :: lruRemove key st).take cap

/-- Go cache.Cache: `lru = none` models the nil LRU pointer of a
disabled cache. -/
structure Cache where
  enabled : Bool
  ttl : Int
  cap : Nat
  lru : Option LruState
deriving Repr

/-- Go cache.New: a false enabled flag or a non-positive maxEntries
yields a disabled cache with no LRU structure. -/
def cacheNew (maxEntries ttlSeconds : Int) (enabled : Bool) : Cache :=
  if !enabled || maxEntries ≤ 0 then ⟨false, 0, 0, none⟩
  else ⟨true, ttlSeconds, maxEntries.toNat, some []⟩

/-- Go Cache.Get: `now` is the clock reading in unix seconds; an
expired hit is removed as a side effect and reported as a miss. -/
def Cache.Get (c : Cache) (now : Int) (key : GoStr) : Option (List Nat) × Cache :=
  if !c.enabled then (none, c)
  else
    match c.lru with
    | none => (none, c)
    | some st =>
      match lruGet key st with
      | (none, st') => (none, { c with lru := some st' })
      | (some e, st') =>
        if e.expiresAt < now then (none, { c with lru := some (lruRemove key st') })
        else (some e.data, { c with lru := some st' })

/-- Go Cache.Set: stores the data with expiry now plus TTL. -/
def Cache.Set (c : Cache) (now : Int) (key : GoStr) (data : List Nat) : Cache :=
  if !c.enabled then c
  else
    match c.lru with
    | none => c
    | some st => { c with lru := some (lruAdd c.cap key ⟨data, now + c.ttl⟩ st) }

/-- Number of entries the cache currently holds. -/
def Cache.size (c : Cache) : Nat :=
  match c.lru with
  | none => 0
  | some st => st.length

/-- One client operation against a cache. -/
inductive CacheOp where
  | get (now : Int) (key : GoStr)
  | set (now : Int) (key : GoStr) (data : List Nat)

/-- Application of one operation. -/
def Cache.step (c : Cache) : CacheOp → Cache
  | .get now key => (c.Get now key).2
  | .set now key data => c.Set now key data

/-- Application of a sequence of operations. -/
def Cache.run (c : Cache) (ops : List CacheOp) : Cache := ops.foldl Cache.step c

/-! Part 9: RequestRouter range serving, handleRangeRequest in main.go. -/

/-- What handleRangeRequest writes: the HTTP status, the Content-Range
header when set, and the body bytes. -/
structure RangeResult where
  status : Nat
  contentRange : Option GoStr
  body : List Nat
deriving DecidableEq, Repr

/-- The 416 response: status only, no header, no body. -/
def range416 : RangeResult := ⟨416, none, []⟩

/-- Go handleRangeRequest (main.go): parse a bytes=start-end header,
default a missing start to 0 and a missing end to length minus one,
reject a failed parse, a negative start, an end beyond the payload,
more or fewer than two dash-separated parts (which also rejects every
multi-range request), and start beyond end; otherwise 206 with a
Content-Range header and the payload slice. -/
def handleRangeRequest (content : List Nat) (rangeHeader : GoStr) : RangeResult :=
  let contentLength : Int := content.length
  if !strStarts rangeHeader ("bytes=").data then range416
  else
    match splitChar '-' (rangeHeader.drop 6) with
    | [p0, p1] =>
      let startRes : Option Int :=
        if p0 = [] then some 0
        else match goParseInt64 p0 with
          | none => none
          | some v => if v < 0 then none else some v
      match startRes with
      | none => range416
      | some start =>
        let stopRes : Option Int :=
          if p1 = [] then some (contentLength - 1)
          else match goParseInt64 p1 with
            | none => none
            | some v => if v ≥ contentLength then none else some v
        match stopRes with
        | none => range416
        | some stop =>
          if start > stop then range416
          else
            ⟨206,
             some (("bytes ").data ++ formatInt start ++ '-' :: formatInt stop
                   ++ '/' :: formatInt contentLength),
             (content.drop start.toNat).take (stop - start + 1).toNat⟩
    | _ => range416

/-! Part 10: claim-side (specification) definitions.

These transcribe the specification's wording, to be compared with the
source-side definitions above. -/

/-- Claim-side range parser: a single range of the form bytes=start-end
whose two components are optional integers; `none` for any parse
failure, including multi-range headers (more than one dash-separated
piece pair). -/
def specParseRange (hdr : GoStr) : Option (Option Int × Option Int) :=
  if !strStarts hdr ("bytes=").data then none
  else
    match splitChar '-' (hdr.drop 6) with
    | [p0, p1] =>
      let s? : Option (Option Int) :=
        if p0 = [] then some none
        else match goParseInt64 p0 with
          | none => none
          | some v => some (some v)
      let e? : Option (Option Int) :=
        if p1 = [] then some none
        else match goParseInt64 p1 with
          | none => none
          | some v => some (some v)
      match s?, e? with
      | some s, some e => some (s, e)
      | _, _ => none
    | _ => none

/-- Claim-side range serving: the request succeeds exactly when, after
defaulting a missing start to 0 and a missing end to length minus one,
start is non-negative, the end is within the payload and start is at
most end; success yields 206 with the Content-Range header and exactly
the bytes start through end, any failure yields 416 with no body. -/
def specRange (content : List Nat) (hdr : GoStr) : RangeResult :=
  match specParseRange hdr with
  | none => ⟨416, none, []⟩
  | some (s?, e?) =>
    let len : Int := content.length
    let s := s?.getD 0
    let e := e?.getD (len - 1)
    if 0 ≤ s ∧ e < len ∧ s ≤ e then
      ⟨206,
       some (("bytes ").data ++ formatInt s ++ '-' :: formatInt e ++ '/' :: formatInt len),
       (content.drop s.toNat).take (e - s + 1).toNat⟩
    else ⟨416, none, []⟩

/-- Claim-side reference resolution: a reference already carrying an
http or https scheme is used as is, any other reference is resolved
relative to the original playlist URL by the resolver `res`. -/
def specResolved (res : GoStr → GoStr → GoStr) (originalURL ref : GoStr) : GoStr :=
  if strStarts ref ("http://").data || strStarts ref ("https://").data then ref
  else res originalURL ref

/-- Claim-side segment endpoint: base, then the segment prefix, then
the query with the percent-encoded resolved URL, then the propagated
sign and ts parameters when present. -/
def specSegmentURL (r : M3U8Rewriter) (resolved : GoStr) : GoStr :=
  r.baseURL ++ r.segPfx ++ ("?u=").data ++ queryEscape resolved
    ++ (if r.signParams ≠ [] then '&' :: r.signParams else [])

/-- Claim-side key endpoint. -/
def specKeyURL (r : M3U8Rewriter) (resolved : GoStr) : GoStr :=
  r.baseURL ++ r.keyPfx ++ ("?u=").data ++ queryEscape resolved
    ++ (if r.signParams ≠ [] then '&' :: r.signParams else [])

/-- Claim-side key attribute transformation: a comma-separated piece
whose trimmed form is URI= followed by a fully double-quoted value has
that value resolved and replaced by the key endpoint; every other piece
is preserved unchanged. -/
def specKeyAttr (res : GoStr → GoStr → GoStr) (r : M3U8Rewriter)
    (originalURL part0 : GoStr) : GoStr :=
  let part := trimSpace part0
  if 6 ≤ part.length ∧ strStarts part ("URI=\"").data ∧ part.getLast? = some '\"' then
    ("URI=\"").data
      ++ specKeyURL r (specResolved res originalURL ((part.drop 5).dropLast))
      ++ ['\"']
  else part0

/-- Claim-side per-line rewriting: blank lines pass through, key
directives have their URI attribute rewritten with all other attributes
and their order preserved, other directive lines pass through, and
every other non-blank line becomes a segment-endpoint URL for its
resolved reference. -/
def specRewriteLine (res : GoStr → GoStr → GoStr) (r : M3U8Rewriter)
    (originalURL line0 : GoStr) : GoStr :=
  let t := trimSpace line0
  if t = [] then t
  else if strStarts t ("#EXT-X-KEY:").data then
    joinStr [','] ((splitChar ',' t).map (specKeyAttr res r originalURL))
  else if strStarts t ("#").data then t
  else specSegmentURL r (specResolved res originalURL t)

/-- Claim-side rewriting: each trimmed line mapped independently, lines
joined by newlines. -/
def specRewrite (res : GoStr → GoStr → GoStr) (r : M3U8Rewriter)
    (content originalURL : GoStr) : GoStr :=
  joinStr ['\n'] ((splitChar '\n' content).map (specRewriteLine res r originalURL))

/-! Part 11: basic lemmas about the string model. -/

theorem strStarts_iff (s pre : GoStr) : strStarts s pre = true ↔ ∃ t, s = pre ++ t := by
  induction pre generalizing s with
  | nil =>
    simp [strStarts, List.isPrefixOf]
  | cons a as ih =>
    cases s with
    | nil =>
      simp [strStarts, List.isPrefixOf]
    | cons b bs =>
      simp only [strStarts, List.isPrefixOf, Bool.and_eq_true, beq_iff_eq] at *
      constructor
      · rintro ⟨rfl, h⟩
        obtain ⟨t, rfl⟩ := (ih bs).mp h
        exact ⟨t, rfl⟩
      · rintro ⟨t, h⟩
        injection h with h1 h2
        exact ⟨h1.symm, (ih bs).mpr ⟨t, h2⟩⟩

theorem splitChar_ne_nil (sep : Char) (l : GoStr) : splitChar sep l ≠ [] := by
  cases l with
  | nil => simp [splitChar]
  | cons c cs =>
    cases h : splitChar sep cs with
    | nil => simp [splitChar, h]
    | cons p ps =>
      simp only [splitChar, h]
      split <;> simp

theorem splitChar_no_sep (sep : Char) (l : GoStr) (h : ∀ c ∈ l, c ≠ sep) :
    splitChar sep l = [l] := by
  induction l with
  | nil => rfl
  | cons c cs ih =>
    have hc : c ≠ sep := h c (by simp)
    have hrest : splitChar sep cs = [cs] := ih fun x hx => h x (by simp [hx])
    simp [splitChar, hrest, hc]


theorem strStarts_append (pre t : GoStr) : strStarts (pre ++ t) pre = true :=
  (strStarts_iff _ _).mpr ⟨t, rfl⟩

/-! Part 12: the rewriter realizes the claim-side rewriting, whenever
the abstract reference resolution succeeds. -/

theorem resolveURL_eq_spec (res : GoStr → GoStr → GoStr)
    (resolveRef : GoStr → GoStr → Option GoStr)
    (hres : ∀ b u, resolveRef b u = some (res b u)) (u b : GoStr) :
    resolveURL resolveRef u b = specResolved res b u := by
  unfold resolveURL specResolved
  split
  · rfl
  · rw [hres]

theorem buildSegmentURL_eq_spec (r : M3U8Rewriter) (u : GoStr) :
    r.buildSegmentURL u = specSegmentURL r u := by
  unfold M3U8Rewriter.buildSegmentURL specSegmentURL
  split <;> simp

theorem buildKeyURL_eq_spec (r : M3U8Rewriter) (u : GoStr) :
    r.buildKeyURL u = specKeyURL r u := by
  unfold M3U8Rewriter.buildKeyURL specKeyURL
  split <;> simp

theorem keyAttr_eq_spec (res : GoStr → GoStr → GoStr)
    (resolveRef : GoStr → GoStr → Option GoStr)
    (hres : ∀ b u, resolveRef b u = some (res b u))
    (r : M3U8Rewriter) (orig part0 : GoStr) :
    r.keyAttr resolveRef orig part0 = specKeyAttr res r orig part0 := by
  unfold M3U8Rewriter.keyAttr specKeyAttr
  by_cases hp : strStarts (trimSpace part0) (("URI=").data) = true
  · obtain ⟨rest, hrest⟩ := (strStarts_iff _ _).mp hp
    rw [hrest, if_pos (hrest ▸ hp)]
    have hdrop4 : (("URI=").data ++ rest).drop 4 = rest := by simp
    rw [hdrop4]
    by_cases hq : 2 ≤ rest.length ∧ rest.head? = some '\"' ∧ rest.getLast? = some '\"'
    · obtain ⟨hlen, hhead, hlast⟩ := hq
      cases rest with
      | nil => simp at hhead
      | cons rh rt =>
        have hrh : rh = '\"' := by simpa using hhead
        have hrt : rt ≠ [] := by
          intro hc
          rw [hc] at hlen
          simp at hlen
        subst hrh
        rw [if_pos ⟨hlen, by simp, hlast⟩]
        have hspec : 6 ≤ (("URI=").data ++ '\"' :: rt).length ∧
            strStarts (("URI=").data ++ '\"' :: rt) (("URI=\"").data) = true ∧
            (("URI=").data ++ '\"' :: rt).getLast? = some '\"' := by
          refine ⟨?_, ?_, ?_⟩
          · have := List.length_pos.mpr hrt
            simp only [List.length_append, List.length_cons]
            simp only [List.length]
            omega
          · exact (strStarts_iff _ _).mpr ⟨rt, by simp⟩
          · rw [List.getLast?_append_of_ne_nil (("URI=").data) (by simp)]
            rw [show ('\"' :: rt) = ['\"'] ++ rt from rfl,
               List.getLast?_append_of_ne_nil ['\"'] hrt] at hlast ⊢
            exact hlast
        rw [if_pos hspec]
        have hdrop5 : ((("URI=").data ++ '\"' :: rt).drop 5) = rt := by simp
        have hdrop1 : (('\"' :: rt).drop 1) = rt := by simp
        rw [hdrop5, hdrop1]
        simp only [buildKeyURL_eq_spec, resolveURL_eq_spec res resolveRef hres]
    · rw [if_neg hq]
      have hnospec : ¬(6 ≤ (("URI=").data ++ rest).length ∧
          strStarts (("URI=").data ++ rest) (("URI=\"").data) = true ∧
          (("URI=").data ++ rest).getLast? = some '\"') := by
        rintro ⟨hl6, hpre, hlast⟩
        obtain ⟨u, hu⟩ := (strStarts_iff _ _).mp hpre
        have hrest2 : rest = '\"' :: u := by simpa using hu
        have hune : u ≠ [] := by
          intro hc
          rw [hrest2, hc] at hl6
          simp at hl6
        apply hq
        refine ⟨?_, by rw [hrest2]; simp, ?_⟩
        · rw [hrest2]
          have := List.length_pos.mpr hune
          simp only [List.length_cons]
          omega
        · rw [List.getLast?_append_of_ne_nil (("URI=").data)
              (by rw [hrest2]; simp)] at hlast
          exact hlast
      rw [if_neg hnospec]
  · rw [if_neg hp]
    have hnospec : ¬(6 ≤ (trimSpace part0).length ∧
        strStarts (trimSpace part0) (("URI=\"").data) = true ∧
        (trimSpace part0).getLast? = some '\"') := by
      rintro ⟨_, hpre, _⟩
      obtain ⟨u, hu⟩ := (strStarts_iff _ _).mp hpre
      apply hp
      rw [hu]
      exact (strStarts_iff _ _).mpr ⟨'\"' :: u, by simp⟩
    rw [if_neg hnospec]

theorem rewriteLine_eq_spec (res : GoStr → GoStr → GoStr)
    (resolveRef : GoStr → GoStr → Option GoStr)
    (hres : ∀ b u, resolveRef b u = some (res b u))
    (r : M3U8Rewriter) (orig line0 : GoStr) :
    r.rewriteLine resolveRef orig line0 = specRewriteLine res r orig line0 := by
  unfold M3U8Rewriter.rewriteLine specRewriteLine M3U8Rewriter.rewriteKeyLine
  by_cases h0 : trimSpace line0 = []
  · simp [h0, strStarts, List.isPrefixOf]
  · by_cases hkey : strStarts (trimSpace line0) (("#EXT-X-KEY:").data) = true
    · have hhash : strStarts (trimSpace line0) (("#").data) = true := by
        obtain ⟨u, hu⟩ := (strStarts_iff _ _).mp hkey
        rw [hu]
        exact (strStarts_iff _ _).mpr ⟨("EXT-X-KEY:").data ++ u, by simp⟩
      have hattr : r.keyAttr resolveRef orig = specKeyAttr res r orig :=
        funext fun p => keyAttr_eq_spec res resolveRef hres r orig p
      simp [h0, hkey, hhash, hattr]
    · by_cases hhash : strStarts (trimSpace line0) (("#").data) = true
      · simp [h0, hkey, hhash]
      · simp [h0, hkey, hhash, buildSegmentURL_eq_spec,
              resolveURL_eq_spec res resolveRef hres]

/-! Part 13: claims C1 and C10, the playlist rewriter. -/

/-- C1: for every playlist content and original playlist URL, rewriting
maps each trimmed line independently — blank lines and directive lines
pass through unchanged, except key directives whose fully double-quoted
URI attribute is resolved (absolute http(s) references as is, others
relative to the original URL) and replaced by the key endpoint with all
other attributes and their order preserved; every other non-blank line
is resolved the same way and replaced by the segment endpoint built as
base, then prefix, then the query with the percent-encoded resolved
URL, then the propagated sign and ts parameters when present.  Stated
as: the source rewriter coincides with the claim-side `specRewrite`
whenever the abstract net/url reference resolution succeeds. -/
theorem c1_rewrite_follows_spec (res : GoStr → GoStr → GoStr)
    (resolveRef : GoStr → GoStr → Option GoStr)
    (r : M3U8Rewriter) (content originalURL : GoStr)
    (hres : ∀ b u, resolveRef b u = some (res b u)) :
    M3U8Rewriter.Rewrite resolveRef r content originalURL
      = specRewrite res r content originalURL := by
  unfold M3U8Rewriter.Rewrite specRewrite
  have h : r.rewriteLine resolveRef originalURL = specRewriteLine res r originalURL :=
    funext fun l => rewriteLine_eq_spec res resolveRef hres r originalURL l
  rw [h]

set_option maxRecDepth 40000 in
/-- Witness for C1: a concrete playlist with one absolute segment, one
relative segment and a key directive, rewritten to the expected output
and agreeing with the claim-side rewriting. -/
theorem c1_rewrite_follows_spec_witness :
    M3U8Rewriter.Rewrite (fun b u => some (b ++ u))
        ⟨[], ("/seg").data, ("/key").data, ("sign=s&ts=1").data⟩
        (("#EXTM3U\nseg1.ts\nhttps://x/y.ts\n#EXT-X-KEY:METHOD=AES-128,URI=\"key.bin\"").data)
        (("https://h/").data)
      = ("#EXTM3U\n/seg?u=https%3A%2F%2Fh%2Fseg1.ts&sign=s&ts=1\n/seg?u=https%3A%2F%2Fx%2Fy.ts&sign=s&ts=1\n#EXT-X-KEY:METHOD=AES-128,URI=\"/key?u=https%3A%2F%2Fh%2Fkey.bin&sign=s&ts=1\"").data
    ∧ M3U8Rewriter.Rewrite (fun b u => some (b ++ u))
        ⟨[], ("/seg").data, ("/key").data, ("sign=s&ts=1").data⟩
        (("#EXTM3U\nseg1.ts\nhttps://x/y.ts\n#EXT-X-KEY:METHOD=AES-128,URI=\"key.bin\"").data)
        (("https://h/").data)
      = specRewrite (fun b u => b ++ u)
        ⟨[], ("/seg").data, ("/key").data, ("sign=s&ts=1").data⟩
        (("#EXTM3U\nseg1.ts\nhttps://x/y.ts\n#EXT-X-KEY:METHOD=AES-128,URI=\"key.bin\"").data)
        (("https://h/").data) :=
  ⟨by decide,
   c1_rewrite_follows_spec (fun b u => b ++ u) (fun b u => some (b ++ u)) _ _ _
     (fun _ _ => rfl)⟩

/-- C10: the key-directive rewriter splits the attribute list on every
comma before scanning; a piece is rewritten exactly when its trimmed
form is URI= followed by a fully double-quoted (hence comma-free)
value, and any piece failing the quote check — in particular the pieces
of a URI attribute whose quoted value contains a comma — passes through
unchanged, as the concrete comma-valued key line shows. -/
theorem c10_key_uri_quoting :
    (∀ (resolveRef : GoStr → GoStr → Option GoStr) (r : M3U8Rewriter) (line base : GoStr),
      r.rewriteKeyLine resolveRef line base
        = joinStr [','] ((splitChar ',' line).map (r.keyAttr resolveRef base)))
    ∧ (∀ (resolveRef : GoStr → GoStr → Option GoStr) (r : M3U8Rewriter) (base p : GoStr),
      ¬(2 ≤ ((trimSpace p).drop 4).length
          ∧ ((trimSpace p).drop 4).head? = some '\"'
          ∧ ((trimSpace p).drop 4).getLast? = some '\"') →
      r.keyAttr resolveRef base p = p)
    ∧ (∀ (resolveRef : GoStr → GoStr → Option GoStr) (r : M3U8Rewriter) (base p v : GoStr),
      trimSpace p = ("URI=\"").data ++ v ++ ['\"'] →
      r.keyAttr resolveRef base p
        = ("URI=\"").data ++ r.buildKeyURL (resolveURL resolveRef v base) ++ ['\"'])
    ∧ (∀ (resolveRef : GoStr → GoStr → Option GoStr) (r : M3U8Rewriter) (base : GoStr),
      r.rewriteKeyLine resolveRef (("#EXT-X-KEY:METHOD=AES-128,URI=\"a,b\"").data) base
        = ("#EXT-X-KEY:METHOD=AES-128,URI=\"a,b\"").data) := by
  refine ⟨fun _ _ _ _ => rfl, ?_, ?_, ?_⟩
  · intro resolveRef r base p hq
    simp only [M3U8Rewriter.keyAttr]
    by_cases hpre : strStarts (trimSpace p) (("URI=").data) = true
    · rw [if_pos hpre, if_neg hq]
    · rw [if_neg hpre]
  · intro resolveRef r base p v hp
    have hp' : trimSpace p = ("URI=").data ++ ('\"' :: (v ++ ['\"'])) := by
      rw [hp]; simp
    simp only [M3U8Rewriter.keyAttr, hp']
    rw [if_pos (strStarts_append _ _)]
    have hdrop4 : (("URI=").data ++ ('\"' :: (v ++ ['\"']))).drop 4 = '\"' :: (v ++ ['\"']) := by
      simp
    rw [hdrop4]
    have hcond : 2 ≤ ('\"' :: (v ++ ['\"'])).length
        ∧ ('\"' :: (v ++ ['\"'])).head? = some '\"'
        ∧ ('\"' :: (v ++ ['\"'])).getLast? = some '\"' := by
      refine ⟨by simp, by simp, ?_⟩
      rw [show ('\"' :: (v ++ ['\"'])) = ('\"' :: v) ++ ['\"'] by simp,
          List.getLast?_append_of_ne_nil ('\"' :: v) (by simp)]
      rfl
    rw [if_pos hcond]
    have hex : ((('\"' :: (v ++ ['\"'])).drop 1).dropLast) = v := by
      simp
    rw [hex]
  · intro resolveRef r base
    rfl

/-- Witness for C10: a fully quoted URI attribute is rewritten, an
unquoted one passes through. -/
theorem c10_key_uri_quoting_witness :
    M3U8Rewriter.keyAttr (fun b u => some (b ++ u))
        ⟨[], ("/seg").data, ("/key").data, []⟩ (("base/").data) (("URI=\"k.bin\"").data)
      = ("URI=\"").data
          ++ M3U8Rewriter.buildKeyURL ⟨[], ("/seg").data, ("/key").data, []⟩
               (resolveURL (fun b u => some (b ++ u)) (("k.bin").data) (("base/").data))
          ++ ['\"']
    ∧ M3U8Rewriter.keyAttr (fun b u => some (b ++ u))
        ⟨[], ("/seg").data, ("/key").data, []⟩ (("base/").data) (("URI=x").data)
      = ("URI=x").data :=
  ⟨c10_key_uri_quoting.2.2.1 _ _ _ _ (("k.bin").data) (by decide),
   c10_key_uri_quoting.2.1 _ _ _ _ (by decide)⟩

/-! Part 14: claim C3, the AccessController. -/

/-- C3: IsAllowedHost is true exactly when the hostname extraction
succeeds and the hostname equals an allowed entry or ends with a dot
followed by an allowed entry; an empty allow set denies everything, and
a URL whose parse fails is denied. -/
theorem c3_allowed_host_iff :
    ∀ (parseHostname : GoStr → Option GoStr) (u : GoStr) (allow : List GoStr),
      (IsAllowedHost parseHostname u allow = true
        ↔ ∃ h, parseHostname u = some h
            ∧ ∃ a ∈ allow, h = a ∨ strEnds h ('.' :: a) = true)
      ∧ (allow = [] → IsAllowedHost parseHostname u allow = false)
      ∧ (parseHostname u = none → IsAllowedHost parseHostname u allow = false) := by
  intro p u allow
  refine ⟨?_, ?_, ?_⟩
  · unfold IsAllowedHost
    split
    · rename_i hlen
      have : allow = [] := List.length_eq_zero.mp hlen
      subst this
      simp
    · cases hp : p u with
      | none => simp [hp]
      | some h =>
        simp only [hp, List.any_eq_true, Bool.or_eq_true, decide_eq_true_eq]
        constructor
        · rintro ⟨a, ha, hcase⟩
          exact ⟨h, rfl, a, ha, hcase⟩
        · rintro ⟨h', hh', a, ha, hcase⟩
          injection hh' with hh'
          subst hh'
          exact ⟨a, ha, hcase⟩
  · rintro rfl
    rfl
  · intro hp
    unfold IsAllowedHost
    split
    · rfl
    · rw [hp]

/-- Witness for C3: a sub-domain of an allowed host is admitted, a
failed parse and an empty allow set are denied. -/
theorem c3_allowed_host_iff_witness :
    IsAllowedHost (fun _ => some (("x.h").data)) (("u").data) [("h").data] = true
    ∧ IsAllowedHost (fun _ => none) (("u").data) [("h").data] = false
    ∧ IsAllowedHost (fun _ => some (("x.h").data)) (("u").data) [] = false :=
  ⟨(c3_allowed_host_iff _ _ _).1.mpr
     ⟨("x.h").data, rfl, ("h").data, by simp, Or.inr (by decide)⟩,
   (c3_allowed_host_iff _ _ _).2.2 rfl,
   (c3_allowed_host_iff _ _ _).2.1 rfl⟩

/-! Part 15: lemmas about decimal rendering, parsing and wrapping. -/

theorem digitChar_isDigit (n : Nat) (h : n < 10) : (digitChar n).isDigit = true := by
  interval_cases n <;> decide

theorem digitChar_toNat (n : Nat) (h : n < 10) : (digitChar n).toNat = 48 + n := by
  interval_cases n <;> decide

theorem digitsVal_append_singleton (l : GoStr) (c : Char) :
    digitsVal (l ++ [c]) = digitsVal l * 10 + (c.toNat - 48) := by
  simp [digitsVal, List.foldl_append]

theorem natReprAux_spec : ∀ fuel n, n < fuel →
    natReprAux fuel n ≠ []
    ∧ (∀ c ∈ natReprAux fuel n, c.isDigit = true)
    ∧ digitsVal (natReprAux fuel n) = n := by
  intro fuel
  induction fuel with
  | zero => intro n hn; omega
  | succ fuel ih =>
    intro n hn
    by_cases h10 : n < 10
    · simp only [natReprAux, if_pos h10]
      refine ⟨by simp, ?_, ?_⟩
      · intro c hc
        rw [List.mem_singleton] at hc
        subst hc
        exact digitChar_isDigit n h10
      · simp [digitsVal, digitChar_toNat n h10]
    · have hdiv : n / 10 < n := Nat.div_lt_self (by omega) (by omega)
      have hfuel : n / 10 < fuel := by omega
      obtain ⟨hne, hdig, hval⟩ := ih (n / 10) hfuel
      simp only [natReprAux, if_neg h10]
      refine ⟨by simp, ?_, ?_⟩
      · intro c hc
        rw [List.mem_append] at hc
        rcases hc with hc | hc
        · exact hdig c hc
        · rw [List.mem_singleton] at hc
          subst hc
          exact digitChar_isDigit _ (Nat.mod_lt _ (by omega))
      · rw [digitsVal_append_singleton, hval,
            digitChar_toNat _ (Nat.mod_lt _ (by omega))]
        omega

theorem natRepr_spec (n : Nat) :
    natRepr n ≠ []
    ∧ (∀ c ∈ natRepr n, c.isDigit = true)
    ∧ digitsVal (natRepr n) = n :=
  natReprAux_spec (n + 1) n (by omega)

theorem isDigit_ne_dash {c : Char} (h : c.isDigit = true) : c ≠ '-' := by
  intro hc
  subst hc
  exact absurd h (by decide)

theorem isDigit_ne_plus {c : Char} (h : c.isDigit = true) : c ≠ '+' := by
  intro hc
  subst hc
  exact absurd h (by decide)

theorem goParseInt64_natRepr (n : Nat) (h : (n : Int) ≤ 2 ^ 63 - 1) :
    goParseInt64 (natRepr n) = some (n : Int) := by
  obtain ⟨hne, hdig, hval⟩ := natRepr_spec n
  rcases hrepr : natRepr n with _ | ⟨c, cs⟩
  · exact absurd hrepr hne
  · rw [hrepr] at hdig hval
    have hc : c.isDigit = true := hdig c (by simp)
    have hcd : ¬ c = '-' := isDigit_ne_dash hc
    have hcp : ¬ c = '+' := isDigit_ne_plus hc
    have h63 : (2 : Int) ^ 63 = 9223372036854775808 := by norm_num
    have hnn : (0 : Int) ≤ (digitsVal (c :: cs) : Int) := Int.natCast_nonneg _
    have hub : ¬ ((digitsVal (c :: cs) : Int) > 2 ^ 63 - 1) := by rw [hval]; omega
    have hlb : ¬ ((digitsVal (c :: cs) : Int) < -(2 ^ 63)) := by omega
    rw [show ((2 : Int) ^ 63 - 1 : Int) = 9223372036854775807 from by norm_num] at h
    simp [goParseInt64, goParseDigits, hcd, hcp, List.all_eq_true, hdig, hval, hlb, hub]
    exact ⟨fun x hx => hdig x (List.mem_cons_of_mem _ hx), by omega, by omega⟩

theorem formatInt_ofNat (n : Nat) : formatInt (n : Int) = natRepr n := by
  unfold formatInt
  rw [if_neg (by omega)]
  simp

theorem goParseInt64_formatInt (i : Int) (h0 : 0 ≤ i) (h : i ≤ 2 ^ 63 - 1) :
    goParseInt64 (formatInt i) = some i := by
  have hi : formatInt i = natRepr i.toNat := by
    unfold formatInt
    rw [if_neg (by omega)]
  rw [hi, goParseInt64_natRepr i.toNat (by omega)]
  exact congrArg some (Int.toNat_of_nonneg h0)

theorem goParseDigits_bounds (neg : Bool) (ds : GoStr) (t : Int)
    (h : goParseDigits neg ds = some t) :
    -(2 ^ 63) ≤ t ∧ t ≤ 2 ^ 63 - 1 := by
  unfold goParseDigits at h
  split at h
  · exact Option.noConfusion h
  · split at h
    · simp only [] at h
      split_ifs at h with h1 h2 h2 <;>
        first
          | exact Option.noConfusion h
          | (injection h with h
             subst h
             simp only [Bool.or_eq_true, decide_eq_true_eq, not_or] at h2
             omega)
    · exact Option.noConfusion h

theorem goParseInt64_bounds (s : GoStr) (t : Int) (h : goParseInt64 s = some t) :
    -(2 ^ 63) ≤ t ∧ t ≤ 2 ^ 63 - 1 := by
  rcases s with _ | ⟨c, cs⟩
  · exact goParseDigits_bounds _ _ _ h
  · simp only [goParseInt64] at h
    split_ifs at h <;> exact goParseDigits_bounds _ _ _ h

theorem natRepr_no_dash (n : Nat) : ∀ c ∈ natRepr n, c ≠ '-' := by
  intro c hc
  exact isDigit_ne_dash ((natRepr_spec n).2.1 c hc)

theorem wrap64_eq_self (x : Int) (h1 : -(2 ^ 63) ≤ x) (h2 : x < 2 ^ 63) :
    wrap64 x = x := by
  unfold wrap64
  have h63 : (2 : Int) ^ 63 = 9223372036854775808 := by norm_num
  have h64 : (2 : Int) ^ 64 = 18446744073709551616 := by norm_num
  rw [Int.emod_eq_of_lt (by omega) (by omega)]
  omega

/-! Part 16: claim C2, range serving. -/

/-- C2: range serving succeeds exactly under the claimed bounds, with
the claimed header and body; every failure is a bodyless 416.  Stated
as: the source handler coincides with the claim-side `specRange`. -/
theorem c2_range_serving (content : List Nat) (hdr : GoStr) :
    handleRangeRequest content hdr = specRange content hdr := by
  unfold handleRangeRequest specRange specParseRange
  have hL0 : (0 : Int) ≤ (content.length : Int) := Int.natCast_nonneg _
  by_cases hb : strStarts hdr (("bytes=").data) = true
  · simp only [hb, Bool.not_true, Bool.false_eq_true, if_false]
    rcases hsp : splitChar '-' (hdr.drop 6) with _ | ⟨p0, rest⟩
    · exact absurd hsp (splitChar_ne_nil _ _)
    · rcases rest with _ | ⟨p1, rest2⟩
      · rfl
      · rcases rest2 with _ | ⟨p2, rest3⟩
        · simp only []
          by_cases h0 : p0 = []
          · simp only [h0, if_pos rfl, if_true]
            by_cases h1 : p1 = []
            · simp only [h1, if_pos rfl, if_true, Option.getD_none]
              by_cases hgt : (0 : Int) > (content.length : Int) - 1
              · rw [if_pos hgt, if_neg (by omega)]
                try rfl
              · rw [if_neg hgt, if_pos (by omega)]
                try rfl
            · simp only [if_neg h1]
              cases hp1 : goParseInt64 p1 with
              | none => rfl
              | some w =>
                simp only [Option.getD_none, Option.getD_some]
                by_cases hw : w ≥ (content.length : Int)
                · rw [if_pos hw, if_neg (by omega)]
                  try rfl
                · rw [if_neg hw]
                  simp only [Option.getD_none, Option.getD_some]
                  by_cases hgt : (0 : Int) > w
                  · rw [if_pos hgt, if_neg (by omega)]
                    try rfl
                  · rw [if_neg hgt, if_pos (by omega)]
                    try rfl
          · simp only [if_neg h0]
            cases hp0 : goParseInt64 p0 with
            | none => rfl
            | some v =>
              simp only []
              by_cases hv : v < 0
              · rw [if_pos hv]
                by_cases h1 : p1 = []
                · simp only [h1, if_pos rfl, if_true, Option.getD_some, Option.getD_none]
                  rw [if_neg (by omega)]
                  try rfl
                · simp only [if_neg h1]
                  cases hp1 : goParseInt64 p1 with
                  | none => rfl
                  | some w =>
                    simp only [Option.getD_some]
                    rw [if_neg (by omega)]
                    try rfl
              · rw [if_neg hv]
                by_cases h1 : p1 = []
                · simp only [h1, if_pos rfl, if_true, Option.getD_some, Option.getD_none]
                  by_cases hgt : v > (content.length : Int) - 1
                  · rw [if_pos hgt, if_neg (by omega)]
                    try rfl
                  · rw [if_neg hgt, if_pos (by omega)]
                    try rfl
                · simp only [if_neg h1]
                  cases hp1 : goParseInt64 p1 with
                  | none => rfl
                  | some w =>
                    simp only [Option.getD_some]
                    by_cases hw : w ≥ (content.length : Int)
                    · rw [if_pos hw, if_neg (by omega)]
                      try rfl
                    · rw [if_neg hw]
                      simp only [range416]
                      by_cases hgt : v > w
                      · rw [if_pos hgt, if_neg (by omega)]
                        try rfl
                      · rw [if_neg hgt, if_pos (by omega)]
                        try rfl
        · rfl
  · have hb' : strStarts hdr (("bytes=").data) = false := by
      cases h : strStarts hdr (("bytes=").data)
      · rfl
      · exact absurd h hb
    simp [hb', range416]

/-! Part 17: claim C9, the start-omitted range form. -/

/-- C9: a header of the form bytes=-N with N below the payload length
is treated as start 0 and end N: status 206, Content-Range bytes 0-N/L,
and the first N+1 bytes of the payload — not the HTTP suffix semantics
of the last N bytes, as the concrete 10-byte payload shows. -/
theorem c9_suffix_range_start_zero (content : List Nat) (n : Nat)
    (hn : (n : Int) ≤ 2 ^ 63 - 1) (hlt : n < content.length) :
    (handleRangeRequest content (("bytes=-").data ++ natRepr n)
      = ⟨206,
         some (("bytes ").data ++ formatInt 0 ++ '-' :: formatInt (n : Int)
               ++ '/' :: formatInt (content.length : Int)),
         content.take (n + 1)⟩)
    ∧ (handleRangeRequest (List.range 10) (("bytes=-4").data)).body
        = (List.range 10).take 5
    ∧ (handleRangeRequest (List.range 10) (("bytes=-4").data)).body
        ≠ (List.range 10).drop 6 := by
  refine ⟨?_, by decide, by decide⟩
  have hsplit : splitChar '-' (('-' :: natRepr n : GoStr)) = [[], natRepr n] := by
    have h1 : splitChar '-' (natRepr n) = [natRepr n] :=
      splitChar_no_sep _ _ (natRepr_no_dash n)
    simp [splitChar, h1]
  have hassoc : (("bytes=-").data ++ natRepr n : GoStr)
      = ("bytes=").data ++ ('-' :: natRepr n) := rfl
  have hpre : strStarts (("bytes=-").data ++ natRepr n) (("bytes=").data) = true := by
    rw [hassoc]
    exact strStarts_append _ _
  have hdrop : ((("bytes=-").data ++ natRepr n : GoStr)).drop 6 = '-' :: natRepr n := rfl
  have hne : ¬ (natRepr n = []) := (natRepr_spec n).1
  have hltI : (n : Int) < (content.length : Int) := by
    exact_mod_cast hlt
  unfold handleRangeRequest
  rw [hdrop, hsplit]
  simp only [hpre, Bool.not_true, Bool.false_eq_true, if_false, if_pos rfl, if_true,
             if_neg hne, goParseInt64_natRepr n hn]
  rw [if_neg (by omega)]
  split
  · rename_i heq
    exact absurd heq (by simp)
  · rename_i stop heq
    injection heq with heq
    subst heq
    rw [if_neg (by omega)]
    have hbody : (content.drop ((0 : Int)).toNat).take (((n : Int) - 0 + 1).toNat)
        = content.take (n + 1) := by
      simp only [Int.toNat_zero, List.drop_zero, Int.sub_zero]
      rw [show ((n : Int) + 1).toNat = n + 1 from by omega]
    rw [hbody]

/-- Witness for C9: the 10-byte payload with header bytes=-4. -/
theorem c9_suffix_range_start_zero_witness :
    ((4 : Nat) : Int) ≤ 2 ^ 63 - 1 ∧ 4 < (List.range 10).length
    ∧ handleRangeRequest (List.range 10) (("bytes=-").data ++ natRepr 4)
        = ⟨206,
           some (("bytes ").data ++ formatInt 0 ++ '-' :: formatInt ((4 : Nat) : Int)
                 ++ '/' :: formatInt (((List.range 10).length : Nat) : Int)),
           (List.range 10).take (4 + 1)⟩ :=
  ⟨by decide, by decide,
   (c9_suffix_range_start_zero (List.range 10) 4 (by decide) (by decide)).1⟩

/-! Part 18: helper lemmas for the SignatureService. -/

theorem roundStep_length (st : List Nat) (kw : Nat × Nat) :
    (roundStep st kw).length = st.length := by
  unfold roundStep
  split <;> simp_all

theorem foldl_roundStep_length (l : List (Nat × Nat)) (h : List Nat) :
    (l.foldl roundStep h).length = h.length := by
  induction l generalizing h with
  | nil => rfl
  | cons x xs ih => rw [List.foldl_cons, ih, roundStep_length]

theorem compressBlock_length (h b : List Nat) (hh : h.length = 8) :
    (compressBlock h b).length = 8 := by
  unfold compressBlock
  rw [List.length_map, List.length_zip, foldl_roundStep_length, hh]
  simp

theorem foldl_compressBlock_length (blocks : List (List Nat)) (acc : List Nat)
    (ha : acc.length = 8) :
    (blocks.foldl compressBlock acc).length = 8 := by
  induction blocks generalizing acc with
  | nil => exact ha
  | cons b bs ih => exact ih _ (compressBlock_length _ _ ha)

theorem sha256_ne_nil (msg : List Nat) : sha256 msg ≠ [] := by
  unfold sha256
  have hlen := foldl_compressBlock_length (toBlocks (padMessage msg)) sha256H0 rfl
  rcases hst : (toBlocks (padMessage msg)).foldl compressBlock sha256H0 with _ | ⟨w, ws⟩
  · rw [hst] at hlen
    simp at hlen
  · have hb : beBytes 4 w
        = [(w >>> 24) % 256, (w >>> 16) % 256, (w >>> 8) % 256, (w >>> 0) % 256] := rfl
    simp [List.flatMap_cons, hb]

theorem hexEncode_ne_nil (l : List Nat) (h : l ≠ []) : hexEncode l ≠ [] := by
  rcases l with _ | ⟨b, bs⟩
  · exact absurd rfl h
  · simp [hexEncode, List.flatMap_cons]

theorem hmacSha256_ne_nil (key msg : List Nat) : hmacSha256 key msg ≠ [] := by
  unfold hmacSha256
  exact sha256_ne_nil _

theorem hmacHex_ne_nil (secret payload : GoStr) : hmacHex secret payload ≠ [] :=
  hexEncode_ne_nil _ (hmacSha256_ne_nil _ _)

theorem formatInt_ne_nil (i : Int) : formatInt i ≠ [] := by
  unfold formatInt
  split
  · simp
  · exact (natRepr_spec _).1

theorem verify_ok_iff (s : Signer) (now : Int) (url sign ts : GoStr) :
    s.Verify now url sign ts = .ok
      ↔ (s.enabled = false
         ∨ (sign ≠ [] ∧ ts ≠ []
            ∧ ∃ t, goParseInt64 ts = some t
                ∧ wrap64 (now - t) ≤ s.ttlSeconds
                ∧ sign = hmacHex s.secret (url ++ ('|' :: ts)))) := by
  cases he : s.enabled with
  | false => simp [Signer.Verify, he]
  | true =>
    simp only [Signer.Verify, he, Bool.not_true, Bool.false_eq_true, if_false,
               Bool.true_eq_false, false_or]
    by_cases hs : sign = []
    · simp [hs]
    · by_cases ht : ts = []
      · simp [ht]
      · rw [if_neg (by simp [hs, ht])]
        cases hp : goParseInt64 ts with
        | none => simp [hs, ht]
        | some t =>
          simp only []
          by_cases hex : wrap64 (now - t) > s.ttlSeconds
          · rw [if_pos hex]
            simp only [iff_iff_implies_and_implies]
            constructor
            · intro hc
              exact absurd hc (by simp)
            · rintro ⟨_, _, t', hp', hw', _⟩
              injection hp' with hp'
              subst hp'
              omega
          · rw [if_neg hex]
            by_cases hsig : sign = hmacHex s.secret (url ++ ('|' :: ts))
            · rw [if_neg (by simpa using hsig)]
              simp only [true_iff, iff_true]
              exact ⟨hs, ht, t, rfl, by omega, hsig⟩
            · rw [if_pos hsig]
              constructor
              · intro hc
                exact absurd hc (by simp)
              · rintro ⟨_, _, t', hp', _, hsig'⟩
                exact absurd hsig' hsig

theorem verify_mismatch_intro (s : Signer) (now t : Int) (url sign ts : GoStr)
    (he : s.enabled = true) (hs : sign ≠ []) (ht : ts ≠ [])
    (hp : goParseInt64 ts = some t) (hex : ¬ wrap64 (now - t) > s.ttlSeconds)
    (hne : sign ≠ hmacHex s.secret (url ++ ('|' :: ts))) :
    s.Verify now url sign ts = .mismatch := by
  unfold Signer.Verify
  simp only [he, Bool.not_true, Bool.false_eq_true, if_false]
  rw [if_neg (by simp [hs, ht]), hp]
  split
  · rename_i heq
    exact absurd heq (by simp)
  · rename_i t' heq
    injection heq with heq
    subst heq
    rw [if_neg hex, if_pos hne]

theorem goStrScan_fst_iff (a : GoStr) : ∀ b, (goStrScan a b).1 = true ↔ a = b := by
  induction a with
  | nil =>
    intro b
    cases b <;> simp [goStrScan]
  | cons x xs ih =>
    intro b
    cases b with
    | nil => simp [goStrScan]
    | cons y ys =>
      by_cases hxy : x = y
      · subst hxy
        simp [goStrScan, ih ys]
      · simp [goStrScan, hxy]

theorem goStringEq_iff (a b : GoStr) : goStringEq a b = true ↔ a = b := by
  unfold goStringEq
  by_cases hl : a.length = b.length
  · rw [if_neg (by simpa using hl)]
    exact goStrScan_fst_iff a b
  · rw [if_pos hl]
    constructor
    · intro hc
      exact absurd hc (by simp)
    · intro hc
      subst hc
      exact absurd rfl hl

/-! Part 19: claims C4, C5 and C6, the SignatureService. -/

/-- C5 (amended): verify accepts everything when signing is disabled;
when enabled it succeeds exactly when the signature and timestamp are
present, the timestamp parses as an int64, the 64-bit wrapped
difference of now and the timestamp is at most the TTL, and the
signature matches the recomputed HMAC; for a non-negative clock and
TTL, a timestamp in the future always passes the elapsed check. -/
theorem c5_verify_semantics :
    (∀ (s : Signer) (now : Int) (url sign ts : GoStr),
      s.Verify now url sign ts = .ok
        ↔ (s.enabled = false
           ∨ (sign ≠ [] ∧ ts ≠ []
              ∧ ∃ t, goParseInt64 ts = some t
                  ∧ wrap64 (now - t) ≤ s.ttlSeconds
                  ∧ sign = hmacHex s.secret (url ++ ('|' :: ts)))))
    ∧ (∀ (s : Signer) (now t : Int) (url sign ts : GoStr),
      s.enabled = true → 0 ≤ s.ttlSeconds → 0 ≤ now →
      goParseInt64 ts = some t → now < t →
      s.Verify now url sign ts ≠ .expired) := by
  refine ⟨verify_ok_iff, ?_⟩
  intro s now t url sign ts he httl hnow hp hfut
  obtain ⟨hlb, hub⟩ := goParseInt64_bounds ts t hp
  have h63 : (2 : Int) ^ 63 = 9223372036854775808 := by norm_num
  have hwrap : wrap64 (now - t) = now - t :=
    wrap64_eq_self _ (by omega) (by omega)
  unfold Signer.Verify
  simp only [he, Bool.not_true, Bool.false_eq_true, if_false]
  by_cases hs : sign = []
  · rw [if_pos (by simp [hs])]
    simp
  · by_cases ht : ts = []
    · rw [if_pos (by simp [ht])]
      simp
    · rw [if_neg (by simp [hs, ht]), hp]
      split
      · rename_i heq
        exact absurd heq (by simp)
      · rename_i t' heq
        injection heq with heq
        subst heq
        rw [if_neg (by omega)]
        split <;> simp

set_option maxRecDepth 100000 in
set_option maxHeartbeats 4000000 in
/-- Counterexample for C5: the elapsed check runs in Go int64
arithmetic, so with the timestamp -9223372036854775808 (the minimum
int64) the subtraction wraps and verification succeeds even though
now minus the timestamp exceeds the TTL mathematically, where the
claim says it must fail. -/
theorem c5_verify_semantics_counterexample :
    Signer.Verify ⟨("k").data, 600, true⟩ 0 (("u").data)
        (hmacHex (("k").data) (("u|-9223372036854775808").data))
        (("-9223372036854775808").data) = .ok
    ∧ ((0 : Int) - (-9223372036854775808) > 600) := by
  constructor
  · apply (verify_ok_iff _ _ _ _ _).mpr
    refine Or.inr ⟨hmacHex_ne_nil _ _, by decide, -9223372036854775808, by decide,
      by decide, ?_⟩
    exact congrArg (hmacHex (("k").data)) (by decide)
  · decide

/-- Witness for C5: a disabled signer accepts, and a future timestamp
is not reported expired. -/
theorem c5_verify_semantics_witness :
    Signer.Verify ⟨[], 0, false⟩ 0 [] [] [] = .ok
    ∧ Signer.Verify ⟨("k").data, 600, true⟩ 0 (("u").data) (("x").data)
        (("7").data) ≠ .expired :=
  ⟨(c5_verify_semantics.1 ⟨[], 0, false⟩ 0 [] [] []).mpr (Or.inl rfl),
   c5_verify_semantics.2 ⟨("k").data, 600, true⟩ 0 7 (("u").data) (("x").data)
     (("7").data) rfl (by decide) (by decide) (by decide) (by decide)⟩

set_option maxRecDepth 100000 in
set_option maxHeartbeats 4000000 in
/-- C4: verifying the pair produced by generate succeeds under the same
secret within the TTL; any change to the signature makes verification
fail; and at concrete instances, a different secret or a mutated
timestamp makes the recomputed HMAC differ so verification fails. -/
theorem c4_generate_verify :
    (∀ (s : Signer) (url : GoStr) (now now' : Int) (sg ts : GoStr),
      s.Generate now url = some (sg, ts) →
      0 ≤ now → now ≤ now' → now' - now ≤ s.ttlSeconds →
      now ≤ 2 ^ 63 - 1 → s.ttlSeconds < 2 ^ 63 →
      s.Verify now' url sg ts = .ok)
    ∧ (∀ (s : Signer) (url : GoStr) (now now' : Int) (sg ts sg' : GoStr),
      s.Generate now url = some (sg, ts) → sg' ≠ sg →
      s.Verify now' url sg' ts ≠ .ok)
    ∧ (Signer.Generate ⟨("k").data, 600, true⟩ 5 (("u").data)
        = some (hmacHex (("k").data) (("u|5").data), ("5").data))
    ∧ (Signer.Verify ⟨("q").data, 600, true⟩ 5 (("u").data)
        (hmacHex (("k").data) (("u|5").data)) (("5").data) = .mismatch)
    ∧ (Signer.Verify ⟨("k").data, 600, true⟩ 6 (("u").data)
        (hmacHex (("k").data) (("u|5").data)) (("6").data) = .mismatch) := by
  have hpay : (("u").data ++ ('|' :: formatInt 5) : GoStr) = ("u|5").data := by decide
  refine ⟨?_, ?_, ?_, by decide, by decide⟩
  case refine_3 =>
    show (if !(true : Bool) then none
          else some (hmacHex (("k").data) ((("u").data) ++ ('|' :: formatInt 5)),
                     formatInt 5))
        = some (hmacHex (("k").data) (("u|5").data), ("5").data)
    rw [hpay]
    rw [show (formatInt 5 : GoStr) = ("5").data from by decide]
    rfl
  · intro s url now now' sg ts hgen h0 h1 h2 h3 h4
    cases he : s.enabled with
    | false =>
      unfold Signer.Generate at hgen
      rw [he] at hgen
      simp at hgen
    | true =>
      unfold Signer.Generate at hgen
      rw [he] at hgen
      simp only [Bool.not_true, Bool.false_eq_true, if_false,
                 Option.some.injEq, Prod.mk.injEq] at hgen
      obtain ⟨hsg, hts⟩ := hgen
      apply (verify_ok_iff s now' url sg ts).mpr
      refine Or.inr ⟨?_, ?_, now, ?_, ?_, ?_⟩
      · rw [← hsg]
        exact hmacHex_ne_nil _ _
      · rw [← hts]
        exact formatInt_ne_nil _
      · rw [← hts]
        exact goParseInt64_formatInt now h0 h3
      · rw [wrap64_eq_self _ (by omega) (by omega)]
        exact h2
      · rw [← hsg, ← hts]
  · intro s url now now' sg ts sg' hgen hne hok
    cases he : s.enabled with
    | false =>
      unfold Signer.Generate at hgen
      rw [he] at hgen
      simp at hgen
    | true =>
      unfold Signer.Generate at hgen
      rw [he] at hgen
      simp only [Bool.not_true, Bool.false_eq_true, if_false,
                 Option.some.injEq, Prod.mk.injEq] at hgen
      obtain ⟨hsg, hts⟩ := hgen
      rcases (verify_ok_iff s now' url sg' ts).mp hok with hdis | ⟨_, _, t, _, _, hsig⟩
      · rw [he] at hdis
        exact Bool.noConfusion hdis
      · apply hne
        rw [hsig, ← hts, hsg]

set_option maxRecDepth 100000 in
set_option maxHeartbeats 4000000 in
/-- Witness for C4: the concrete generated pair verifies at a later
clock within the TTL, and a one-character extension of the signature is
rejected. -/
theorem c4_generate_verify_witness :
    Signer.Verify ⟨("k").data, 600, true⟩ 6 (("u").data)
        (hmacHex (("k").data) (("u|5").data)) (("5").data) = .ok
    ∧ Signer.Verify ⟨("k").data, 600, true⟩ 6 (("u").data)
        ('x' :: hmacHex (("k").data) (("u|5").data)) (("5").data) ≠ .ok :=
  ⟨c4_generate_verify.1 ⟨("k").data, 600, true⟩ (("u").data) 5 6 _ _
     c4_generate_verify.2.2.1 (by decide) (by decide) (by decide) (by decide) (by decide),
   c4_generate_verify.2.1 ⟨("k").data, 600, true⟩ (("u").data) 5 6 _ _ _
     c4_generate_verify.2.2.1 (List.cons_ne_self _ _)⟩

/-- C6 (amended): when signing is enabled and the timestamp checks
pass, verify compares the provided signature against the recomputed
HMAC with Go's built-in string equality, which scans to the first
differing byte; its step count depends on where the strings first
differ, so the comparison is not constant-time. -/
theorem c6_mismatch_comparison :
    (∀ (s : Signer) (now t : Int) (url sign ts : GoStr),
      s.enabled = true → sign ≠ [] → ts ≠ [] →
      goParseInt64 ts = some t → ¬ (wrap64 (now - t) > s.ttlSeconds) →
      (s.Verify now url sign ts = .ok
        ↔ goStringEq sign (hmacHex s.secret (url ++ ('|' :: ts))) = true)
      ∧ (s.Verify now url sign ts = .mismatch
        ↔ goStringEq sign (hmacHex s.secret (url ++ ('|' :: ts))) = false))
    ∧ (∃ a b e : GoStr, a.length = e.length ∧ b.length = e.length
        ∧ goStringEq a e = false ∧ goStringEq b e = false
        ∧ goStringEqSteps a e ≠ goStringEqSteps b e) := by
  constructor
  · intro s now t url sign ts he hs ht hp hex
    unfold Signer.Verify
    simp only [he, Bool.not_true, Bool.false_eq_true, if_false]
    rw [if_neg (by simp [hs, ht]), hp]
    split
    · rename_i heq
      exact absurd heq (by simp)
    · rename_i t' heq
      injection heq with heq
      subst heq
      rw [if_neg hex]
      by_cases hsig : sign = hmacHex s.secret (url ++ ('|' :: ts))
      · rw [if_neg (by simpa using hsig)]
        refine ⟨?_, ?_⟩
        · simp [goStringEq_iff, hsig]
        · constructor
          · intro hc
            exact absurd hc (by simp)
          · intro hc
            exact absurd hc (by simp [(goStringEq_iff _ _).mpr hsig])
      · rw [if_pos hsig]
        refine ⟨⟨fun hc => absurd hc (by simp),
                 fun hc => absurd ((goStringEq_iff _ _).mp hc) hsig⟩, ?_⟩
        constructor
        · intro _
          cases hq : goStringEq sign (hmacHex s.secret (url ++ ('|' :: ts)))
          · rfl
          · exact absurd ((goStringEq_iff _ _).mp hq) hsig
        · intro _
          rfl
  · exact ⟨("xb").data, ("ax").data, ("ab").data,
           by decide, by decide, by decide, by decide, by decide⟩

set_option maxRecDepth 100000 in
set_option maxHeartbeats 4000000 in
/-- Counterexample for C6: two rejected signatures of the same length
as the expected one take a different number of byte comparisons — one
differing at the first byte, one at the last — so the comparison's
running time depends on where the strings first differ. -/
theorem c6_mismatch_comparison_counterexample :
    hmacHex (("k").data) (("u|5").data)
      = ("28cfc10a96c4ac6b1fd35375f2bd6e96c9b794dafc108922acdd3b1f8cc54feb").data
    ∧ Signer.Verify ⟨("k").data, 600, true⟩ 5 (("u").data)
        (("x8cfc10a96c4ac6b1fd35375f2bd6e96c9b794dafc108922acdd3b1f8cc54feb").data)
        (("5").data) = .mismatch
    ∧ Signer.Verify ⟨("k").data, 600, true⟩ 5 (("u").data)
        (("28cfc10a96c4ac6b1fd35375f2bd6e96c9b794dafc108922acdd3b1f8cc54fex").data)
        (("5").data) = .mismatch
    ∧ goStringEqSteps
        (("x8cfc10a96c4ac6b1fd35375f2bd6e96c9b794dafc108922acdd3b1f8cc54feb").data)
        (("28cfc10a96c4ac6b1fd35375f2bd6e96c9b794dafc108922acdd3b1f8cc54feb").data) = 1
    ∧ goStringEqSteps
        (("28cfc10a96c4ac6b1fd35375f2bd6e96c9b794dafc108922acdd3b1f8cc54fex").data)
        (("28cfc10a96c4ac6b1fd35375f2bd6e96c9b794dafc108922acdd3b1f8cc54feb").data) = 64
    ∧ (1 : Nat) ≠ 64 := by
  have hE : hmacHex (("k").data) (("u|5").data)
      = ("28cfc10a96c4ac6b1fd35375f2bd6e96c9b794dafc108922acdd3b1f8cc54feb").data := by
    decide
  have hE' : hmacHex (("k").data) ((("u").data) ++ ('|' :: ("5").data))
      = ("28cfc10a96c4ac6b1fd35375f2bd6e96c9b794dafc108922acdd3b1f8cc54feb").data := by
    rw [show ((("u").data) ++ ('|' :: ("5").data) : GoStr) = ("u|5").data from by decide]
    exact hE
  refine ⟨hE, ?_, ?_, by decide, by decide, by decide⟩
  · apply verify_mismatch_intro _ _ 5 _ _ _ rfl (by decide) (by decide) (by decide) (by decide)
    rw [hE']
    decide
  · apply verify_mismatch_intro _ _ 5 _ _ _ rfl (by decide) (by decide) (by decide) (by decide)
    rw [hE']
    decide

set_option maxRecDepth 100000 in
set_option maxHeartbeats 4000000 in
/-- Witness for C6: a correctly signed concrete request passes the
comparison. -/
theorem c6_mismatch_comparison_witness :
    Signer.Verify ⟨("k").data, 600, true⟩ 5 (("u").data)
        (hmacHex (("k").data) (("u|5").data)) (("5").data) = .ok :=
  ((c6_mismatch_comparison.1 ⟨("k").data, 600, true⟩ 5 5 (("u").data) _ (("5").data)
      rfl (hmacHex_ne_nil _ _) (by decide) (by decide) (by decide)).1).mpr
    ((goStringEq_iff _ _).mpr
      (congrArg (hmacHex (("k").data)) (by decide)))

/-! Part 20: lemmas about the LRU cache model. -/

theorem lruRemove_length_le (key : GoStr) (st : LruState) :
    (lruRemove key st).length ≤ st.length := by
  induction st with
  | nil => simp [lruRemove]
  | cons p rest ih =>
    obtain ⟨k, e⟩ := p
    unfold lruRemove
    split
    · exact Nat.le_succ_of_le ih
    · simpa using ih

theorem lruRemove_length_lt (key : GoStr) (st : LruState) (e : CacheEntry)
    (h : lruLookup key st = some e) : (lruRemove key st).length < st.length := by
  induction st with
  | nil => exact absurd h (by simp [lruLookup])
  | cons p rest ih =>
    obtain ⟨k, e'⟩ := p
    unfold lruRemove
    unfold lruLookup at h
    split
    · calc (lruRemove key rest).length ≤ rest.length := lruRemove_length_le key rest
        _ < (⟨k, e'⟩ :: rest : LruState).length := by simp
    · rename_i hk
      rw [if_neg hk] at h
      simpa using ih h

theorem lruGet_snd_length_le (key : GoStr) (st : LruState) :
    ((lruGet key st).2).length ≤ st.length := by
  unfold lruGet
  cases hl : lruLookup key st with
  | none => simp
  | some e =>
    have := lruRemove_length_lt key st e hl
    simpa using this

theorem lruRemove_of_lookup_none (key : GoStr) (st : LruState)
    (h : lruLookup key st = none) : lruRemove key st = st := by
  induction st with
  | nil => rfl
  | cons p rest ih =>
    obtain ⟨k, e⟩ := p
    unfold lruLookup at h
    unfold lruRemove
    split
    · rename_i hk
      rw [if_pos hk] at h
      exact absurd h (by simp)
    · rename_i hk
      rw [if_neg hk] at h
      rw [ih h]

theorem lruLookup_take_none (key : GoStr) (st : LruState) (n : Nat)
    (h : lruLookup key st = none) : lruLookup key (st.take n) = none := by
  induction st generalizing n with
  | nil => simp [lruLookup]
  | cons p rest ih =>
    obtain ⟨k, e⟩ := p
    unfold lruLookup at h
    cases n with
    | zero => rfl
    | succ m =>
      rw [List.take_succ_cons]
      unfold lruLookup
      split
      · rename_i hk
        rw [if_pos hk] at h
        exact absurd h (by simp)
      · rename_i hk
        rw [if_neg hk] at h
        exact ih m h

theorem lruLookup_map_mem (key : GoStr) (l : List GoStr) (e : GoStr → CacheEntry)
    (h : key ∈ l) : lruLookup key (l.map fun k => (k, e k)) = some (e key) := by
  induction l with
  | nil => simp at h
  | cons k0 rest ih =>
    rw [List.map_cons]
    unfold lruLookup
    by_cases hk : k0 = key
    · rw [if_pos hk, hk]
    · rw [if_neg hk]
      rcases List.mem_cons.mp h with h0 | h0
      · exact absurd h0.symm hk
      · exact ih h0

theorem lruLookup_map_not_mem (key : GoStr) (l : List GoStr) (e : GoStr → CacheEntry)
    (h : key ∉ l) : lruLookup key (l.map fun k => (k, e k)) = none := by
  induction l with
  | nil => rfl
  | cons k0 rest ih =>
    rw [List.map_cons]
    unfold lruLookup
    rw [if_neg (fun hk => h (by rw [← hk]; exact List.mem_cons_self _ _))]
    exact ih fun hm => h (List.mem_cons_of_mem _ hm)

theorem take_append_take (n : Nat) (l m : LruState) :
    (l ++ m.take n).take n = (l ++ m).take n := by
  rw [List.take_append_eq_append_take, List.take_append_eq_append_take, List.take_take,
      Nat.min_eq_left (Nat.sub_le _ _)]

theorem foldl_lruAdd_fresh (cap : Nat) (e : GoStr → CacheEntry) :
    ∀ (ks : List GoStr) (st : LruState),
      (∀ k ∈ ks, lruLookup k st = none) → ks.Nodup → st.length ≤ cap →
      ks.foldl (fun s k => lruAdd cap k (e k) s) st
        = ((ks.reverse.map fun k => (k, e k)) ++ st).take cap := by
  intro ks
  induction ks with
  | nil =>
    intro st _ _ hlen
    simp [List.take_of_length_le hlen]
  | cons k ks' ih =>
    intro st hfresh hnd hlen
    rw [List.foldl_cons]
    have hk0 : lruLookup k st = none := hfresh k (List.mem_cons_self _ _)
    have hadd : lruAdd cap k (e k) st = ((k, e k) :: st).take cap := by
      unfold lruAdd
      rw [lruRemove_of_lookup_none k st hk0]
    rw [hadd]
    rw [ih (((k, e k) :: st).take cap) ?fresh (List.nodup_cons.mp hnd).2
        (List.length_take_le _ _)]
    case fresh =>
      intro k' hk'
      apply lruLookup_take_none
      unfold lruLookup
      rw [if_neg (fun he => (List.nodup_cons.mp hnd).1 (by rw [he]; exact hk'))]
      exact hfresh k' (List.mem_cons_of_mem _ hk')
    rw [take_append_take, List.reverse_cons, List.map_append]
    simp

/-- Boundedness invariant: the cache has capacity N and its LRU state,
when present, holds at most N entries. -/
def cacheBounded (N : Nat) (c : Cache) : Prop :=
  c.cap = N ∧ ∀ st, c.lru = some st → st.length ≤ N

theorem step_preserves_bounded (N : Nat) (c : Cache) (op : CacheOp)
    (h : cacheBounded N c) : cacheBounded N (c.step op) := by
  obtain ⟨hcap, hlen⟩ := h
  obtain ⟨en, cttl, ccap, clru⟩ := c
  cases op with
  | get now key =>
    cases en with
    | false =>
      simp only [Cache.step, Cache.Get, Bool.not_false, if_true]
      exact ⟨hcap, hlen⟩
    | true =>
      cases clru with
      | none =>
        simp only [Cache.step, Cache.Get, Bool.not_true, Bool.false_eq_true, if_false]
        exact ⟨hcap, hlen⟩
      | some st =>
        have hstN : st.length ≤ N := hlen st rfl
        simp only [Cache.step, Cache.Get, Bool.not_true, Bool.false_eq_true, if_false]
        rcases hget : lruGet key st with ⟨o, st'⟩
        have hle : st'.length ≤ st.length := by
          have h2 := lruGet_snd_length_le key st
          rw [hget] at h2
          exact h2
        cases o with
        | none =>
          refine ⟨hcap, fun st2 hst2 => ?_⟩
          obtain rfl : st2 = st' := by
            have h3 : some st' = some st2 := hst2
            injection h3 with h3
            exact h3.symm
          exact le_trans hle hstN
        | some e =>
          show cacheBounded N
            ((if e.expiresAt < now then
                (none, ({ enabled := true, ttl := cttl, cap := ccap,
                          lru := some (lruRemove key st') } : Cache))
              else
                (some e.data, ({ enabled := true, ttl := cttl, cap := ccap,
                                 lru := some st' } : Cache))).2)
          by_cases hexp : e.expiresAt < now
          · rw [if_pos hexp]
            refine ⟨hcap, fun st2 hst2 => ?_⟩
            obtain rfl : st2 = lruRemove key st' := by
              have h3 : some (lruRemove key st') = some st2 := hst2
              injection h3 with h3
              exact h3.symm
            exact le_trans (lruRemove_length_le _ _) (le_trans hle hstN)
          · rw [if_neg hexp]
            refine ⟨hcap, fun st2 hst2 => ?_⟩
            obtain rfl : st2 = st' := by
              have h3 : some st' = some st2 := hst2
              injection h3 with h3
              exact h3.symm
            exact le_trans hle hstN
  | set now key data =>
    cases en with
    | false =>
      simp only [Cache.step, Cache.Set, Bool.not_false, if_true]
      exact ⟨hcap, hlen⟩
    | true =>
      cases clru with
      | none =>
        simp only [Cache.step, Cache.Set, Bool.not_true, Bool.false_eq_true, if_false]
        exact ⟨hcap, hlen⟩
      | some st =>
        simp only [Cache.step, Cache.Set, Bool.not_true, Bool.false_eq_true, if_false]
        refine ⟨hcap, fun st2 hst2 => ?_⟩
        obtain rfl : st2 = lruAdd ccap key ⟨data, now + cttl⟩ st := by
          have h3 : some (lruAdd ccap key ⟨data, now + cttl⟩ st) = some st2 := hst2
          injection h3 with h3
          exact h3.symm
        simp only [cacheBounded] at hcap
        rw [← hcap]
        exact List.length_take_le _ _

theorem run_preserves_bounded (N : Nat) (ops : List CacheOp) :
    ∀ (c : Cache), cacheBounded N c → cacheBounded N (c.run ops) := by
  induction ops with
  | nil => exact fun c h => h
  | cons op rest ih =>
    intro c h
    exact ih _ (step_preserves_bounded N c op h)

theorem foldSet_cache_eq (ks : List GoStr) (f : GoStr → List Nat)
    (now ttl : Int) (N : Nat) :
    ∀ st : LruState,
      ks.foldl (fun c k => c.Set now k (f k)) (⟨true, ttl, N, some st⟩ : Cache)
        = (⟨true, ttl, N,
           some (ks.foldl (fun s k => lruAdd N k ⟨f k, now + ttl⟩ s) st)⟩ : Cache) := by
  induction ks with
  | nil => intro st; rfl
  | cons k ks' ih =>
    intro st
    rw [List.foldl_cons, List.foldl_cons]
    exact ih (lruAdd N k ⟨f k, now + ttl⟩ st)

/-! Part 21: claims C7 and C8, the ResourceCache. -/

/-- C7: an enabled cache of capacity N at least 1 never exceeds N
entries under any sequence of get and set operations, and filling it
with N+1 distinct keys evicts exactly the least-recently-used (first)
key, leaving the other N retrievable. -/
theorem c7_cache_capacity_lru :
    ∀ (maxE ttl : Int), 1 ≤ maxE →
      (∀ ops : List CacheOp, ((cacheNew maxE ttl true).run ops).size ≤ maxE.toNat)
      ∧ (∀ (k0 : GoStr) (rest : List GoStr) (f : GoStr → List Nat) (now : Int),
          (k0 :: rest).Nodup → rest.length = maxE.toNat → 0 ≤ ttl →
          ((((k0 :: rest).foldl (fun c k => c.Set now k (f k))
              (cacheNew maxE ttl true)).Get now k0).1 = none
           ∧ ∀ k ∈ rest,
             (((k0 :: rest).foldl (fun c k => c.Set now k (f k))
                 (cacheNew maxE ttl true)).Get now k).1 = some (f k))) := by
  intro maxE ttl h1
  have hnew : cacheNew maxE ttl true = (⟨true, ttl, maxE.toNat, some []⟩ : Cache) := by
    unfold cacheNew
    rw [if_neg (by simp; omega)]
  constructor
  · intro ops
    have hinv := run_preserves_bounded maxE.toNat ops (cacheNew maxE ttl true)
      (by
        rw [hnew]
        refine ⟨rfl, fun st hst => ?_⟩
        injection hst with hst
        subst hst
        simp)
    obtain ⟨hcap, hlen⟩ := hinv
    unfold Cache.size
    cases hl : ((cacheNew maxE ttl true).run ops).lru with
    | none => exact Nat.zero_le _
    | some st => exact hlen st hl
  · intro k0 rest f now hnd hlenr httl
    rw [hnew, foldSet_cache_eq]
    have hfinal : (k0 :: rest).foldl
        (fun s k => lruAdd maxE.toNat k ⟨f k, now + ttl⟩ s) []
        = rest.reverse.map fun k => (k, (⟨f k, now + ttl⟩ : CacheEntry)) := by
      rw [foldl_lruAdd_fresh maxE.toNat (fun k => (⟨f k, now + ttl⟩ : CacheEntry))
            (k0 :: rest) [] (fun _ _ => rfl) hnd (Nat.zero_le _)]
      rw [List.append_nil, List.reverse_cons, List.map_append]
      have hlen2 : (rest.reverse.map fun k => (k, (⟨f k, now + ttl⟩ : CacheEntry))).length
          = maxE.toNat := by
        rw [List.length_map, List.length_reverse, hlenr]
      rw [← hlen2, List.take_left]
    rw [hfinal]
    have hk0 : k0 ∉ rest.reverse := by
      intro hm
      exact (List.nodup_cons.mp hnd).1 (List.mem_reverse.mp hm)
    constructor
    · have hlk := lruLookup_map_not_mem k0 rest.reverse
        (fun k => (⟨f k, now + ttl⟩ : CacheEntry)) hk0
      simp only [Cache.Get, lruGet, hlk, Bool.not_true, Bool.false_eq_true, if_false]
    · intro k hk
      have hlk := lruLookup_map_mem k rest.reverse
        (fun k => (⟨f k, now + ttl⟩ : CacheEntry)) (List.mem_reverse.mpr hk)
      have hexp : ¬ ((⟨f k, now + ttl⟩ : CacheEntry).expiresAt < now) := by
        show ¬ (now + ttl < now)
        omega
      simp only [Cache.Get, lruGet, hlk, Bool.not_true, Bool.false_eq_true, if_false]
      rw [if_neg hexp]

/-- Witness for C7: capacity 2 with keys a, b, c inserted in order —
a is evicted, b is retrievable, and the size stays within bounds. -/
theorem c7_cache_capacity_lru_witness :
    ((([("a").data, ("b").data, ("c").data]).foldl
        (fun c k => c.Set 0 k [1]) (cacheNew 2 60 true)).Get 0 (("a").data)).1 = none
    ∧ ((([("a").data, ("b").data, ("c").data]).foldl
        (fun c k => c.Set 0 k [1]) (cacheNew 2 60 true)).Get 0 (("b").data)).1 = some [1]
    ∧ ((cacheNew 2 60 true).run [CacheOp.set 0 (("x").data) [7]]).size ≤ (2 : Int).toNat :=
  ⟨(((c7_cache_capacity_lru 2 60 (by decide)).2 (("a").data)
      [("b").data, ("c").data] (fun _ => [1]) 0 (by decide) (by decide) (by decide))).1,
   (((c7_cache_capacity_lru 2 60 (by decide)).2 (("a").data)
      [("b").data, ("c").data] (fun _ => [1]) 0 (by decide) (by decide) (by decide))).2
     (("b").data) (by simp),
   (c7_cache_capacity_lru 2 60 (by decide)).1 [CacheOp.set 0 (("x").data) [7]]⟩

/-- C8: constructing a cache with non-positive maxEntries yields a
disabled cache even with the enabled flag set: no LRU structure is
allocated, every get misses and set stores nothing. -/
theorem c8_nonpositive_capacity_disabled :
    ∀ (maxEntries ttlSeconds : Int), maxEntries ≤ 0 →
      (cacheNew maxEntries ttlSeconds true).enabled = false
      ∧ (cacheNew maxEntries ttlSeconds true).lru = none
      ∧ (∀ (now : Int) (key : GoStr),
          (cacheNew maxEntries ttlSeconds true).Get now key
            = (none, cacheNew maxEntries ttlSeconds true))
      ∧ (∀ (now : Int) (key : GoStr) (data : List Nat),
          (cacheNew maxEntries ttlSeconds true).Set now key data
            = cacheNew maxEntries ttlSeconds true) := by
  intro maxE ttl hle
  have hc : cacheNew maxE ttl true = (⟨false, 0, 0, none⟩ : Cache) := by
    unfold cacheNew
    rw [if_pos (by simp [hle])]
  rw [hc]
  exact ⟨rfl, rfl, fun now key => rfl, fun now key data => rfl⟩

/-- Witness for C8: maxEntries 0 yields a cache with no LRU state whose
get always misses. -/
theorem c8_nonpositive_capacity_disabled_witness :
    (cacheNew 0 60 true).lru = none
    ∧ (cacheNew 0 60 true).Get 5 (("a").data) = (none, cacheNew 0 60 true)
    ∧ (cacheNew 0 60 true).Set 5 (("a").data) [1] = cacheNew 0 60 true :=
  ⟨(c8_nonpositive_capacity_disabled 0 60 (by decide)).2.1,
   (c8_nonpositive_capacity_disabled 0 60 (by decide)).2.2.1 5 (("a").data),
   (c8_nonpositive_capacity_disabled 0 60 (by decide)).2.2.2 5 (("a").data) [1]⟩
